import Mathlib

/-!
Verification of the MNIST logistic-regression notebook
(`mnist-logistic-regression-classifier.ipynb`).

The notebook has four pieces of logic:

* `load_data` — reads the pickled dataset; its single explicit `raise`
  fires when `os.path.split(dataset)` yields an empty directory part and
  the file does not exist.
* `LogisticRegression` — the linear-softmax classifier: probabilities
  `softmax(x·W + b)` row-wise, prediction `argmax`, loss
  `-mean(log p[row, label])`, error metric `mean(pred ≠ label)`.
* `msgd_optimization_mnist` — the mini-batch gradient-descent loop with
  early stopping (patience 5000, improvement threshold 0.995,
  patience multiplier 2, validation frequency
  `min(n_train_batches, patience // 2)`).
* `predict` — unpickles a saved classifier and runs its forward pass.

The training loop is embedded as a small state machine.  The numeric
content of a training step (the Theano gradient update) only influences
the loop through the float values returned by `validate_model` and
`test_model`; those are abstracted as oracle functions from the global
iteration number and the batch index to a rational number, so that every
control-flow decision of the loop is reproduced exactly.  Each executed
gradient step appends a `StepRec` to the trace (most recent step first),
and each validation checkpoint is stored in a `CheckRec`.
-/

namespace MnistLogreg

/-! ### Constants of the training section -/

/-- `patience = 5000` -- for early stopping, maximum iterations to take. -/
def initial_patience : ℕ := 5000

/-- `patience_mult = 2` -- patience extension factor on a new best model. -/
def patience_mult : ℕ := 2

/-- `improvement_thresh = 0.995` -- defines what is a "better model". -/
def improvement_thresh : ℚ := 995 / 1000

/-- `validation_freq = min(n_train_batches, patience // 2)`, computed once
with `patience` at its initial value. -/
def validation_freq (nTrain : ℕ) : ℕ := min nTrain (initial_patience / 2)

/-! ### Numeric helpers -/

/-- `numpy.mean` of a list of rationals (sum divided by length). -/
def listMean (l : List ℚ) : ℚ := l.sum / l.length

/-- `validation_loss < best_validation_loss`, where `best_validation_loss`
starts at `numpy.inf`; `none` stands for infinity. -/
def ltBest (v : ℚ) : Option ℚ → Bool
  | none => true
  | some b => decide (v < b)

/-- `validation_loss < improvement_thresh * best_validation_loss`; again
`none` stands for the initial infinity (any float is below `0.995 * inf`). -/
def ltMargin (v : ℚ) : Option ℚ → Bool
  | none => true
  | some b => decide (v < improvement_thresh * b)

/-! ### Loop state and trace records -/

/-- Record of one validation checkpoint (the body of
`if (iter_no + 1) % validation_freq == 0`). -/
structure CheckRec where
  iterNo : ℕ
  vloss : ℚ
  bestBefore : Option ℚ
  bestAfter : Option ℚ
  patienceBefore : ℕ
  patienceAfter : ℕ
  improved : Bool
  testScore : Option ℚ
  saved : Bool
deriving Repr, DecidableEq

/-- Record of one executed gradient step (one `train_model` call). -/
structure StepRec where
  epoch : ℕ
  minibatch : ℕ
  iterNo : ℕ
  check : Option CheckRec
  patienceAfter : ℕ
  doneAfter : Bool
deriving Repr, DecidableEq

/-- Mutable state of the training section of `msgd_optimization_mnist`.
`trace` lists the executed gradient steps, most recent first. -/
structure TState where
  patience : ℕ
  best : Option ℚ
  testScore : ℚ
  done : Bool
  epoch : ℕ
  trace : List StepRec
deriving Repr, DecidableEq

/-- The data the loop consumes: batch counts for the three splits and the
values `validate_model` / `test_model` return, as functions of the global
iteration number (i.e. of the parameters at that moment) and the batch
index. -/
structure Oracles where
  valB : ℕ → ℕ → ℚ
  testB : ℕ → ℕ → ℚ
  nTrain : ℕ
  nValidate : ℕ
  nTest : ℕ

/-- `numpy.mean([validate_model(i) for i in range(n_validate_batches)])`. -/
def meanValidation (O : Oracles) (iterNo : ℕ) : ℚ :=
  listMean ((List.range O.nValidate).map (O.valB iterNo))

/-- `1. - numpy.mean([test_model(i) for i in range(n_test_batches)])`. -/
def meanTestScore (O : Oracles) (iterNo : ℕ) : ℚ :=
  1 - listMean ((List.range O.nTest).map (O.testB iterNo))

/-- One validation checkpoint: the `if validation_loss < best_validation_loss`
block of the notebook, returning the updated state and the checkpoint
record (`saved = true` models the `pickle.dump` of the classifier). -/
def doCheckpoint (O : Oracles) (s : TState) (iterNo : ℕ) : TState × CheckRec :=
  let vloss := meanValidation O iterNo
  if ltBest vloss s.best then
    let p1 := if ltMargin vloss s.best then max s.patience (iterNo * patience_mult)
              else s.patience
    let ts := meanTestScore O iterNo
    ({ s with patience := p1, best := some vloss, testScore := ts },
     { iterNo := iterNo
       vloss := vloss
       bestBefore := s.best
       bestAfter := some vloss
       patienceBefore := s.patience
       patienceAfter := p1
       improved := true
       testScore := some ts
       saved := true })
  else
    (s,
     { iterNo := iterNo
       vloss := vloss
       bestBefore := s.best
       bestAfter := s.best
       patienceBefore := s.patience
       patienceAfter := s.patience
       improved := false
       testScore := none
       saved := false })

/-- Append one executed gradient step to the trace and evaluate the early
exit `if iter_no >= patience: done_looping = True; break`. -/
def pushStep (s : TState) (epoch mb iterNo : ℕ) (c : Option CheckRec) : TState :=
  { s with
    done := decide (s.patience ≤ iterNo)
    trace :=
      { epoch := epoch
        minibatch := mb
        iterNo := iterNo
        check := c
        patienceAfter := s.patience
        doneAfter := decide (s.patience ≤ iterNo) } :: s.trace }

/-- One iteration of the inner `for minibatch_index in range(n_train_batches)`
loop: train on the batch, validate when `(iter_no + 1) % validation_freq == 0`,
then test the early-exit condition. -/
def trainStep (O : Oracles) (vf : ℕ) (s : TState) (epoch mb : ℕ) : TState :=
  let iterNo := (epoch - 1) * O.nTrain + mb
  if (iterNo + 1) % vf = 0 then
    let pr := doCheckpoint O s iterNo
    pushStep pr.1 epoch mb iterNo (some pr.2)
  else
    pushStep s epoch mb iterNo none

/-- The inner loop over minibatches of one epoch; the `break` is modelled
by skipping the remaining batches once `done` is set. -/
def runBatches (O : Oracles) (vf : ℕ) (epoch : ℕ) (s : TState) : TState :=
  (List.range O.nTrain).foldl
    (fun st mb => if st.done then st else trainStep O vf st epoch mb) s

/-- The outer `while (epoch < n_epochs) and (not done_looping)` loop; the
fuel argument is the number of epochs still allowed, so the recursion
starts with fuel `n_epochs` and `epoch = 0` in the state. -/
def runEpochs (O : Oracles) (vf : ℕ) : ℕ → TState → TState
  | 0, s => s
  | fuel + 1, s =>
    if s.done then s
    else runEpochs O vf fuel (runBatches O vf (s.epoch + 1) { s with epoch := s.epoch + 1 })

/-- State before the training loop starts. -/
def initState : TState :=
  { patience := initial_patience
    best := none
    testScore := 0
    done := false
    epoch := 0
    trace := [] }

/-- The whole training section of `msgd_optimization_mnist`. -/
def msgdRun (O : Oracles) (nEpochs : ℕ) : TState :=
  runEpochs O (validation_freq O.nTrain) nEpochs initState

/-- The trace in chronological order (first executed step first). -/
def chron (s : TState) : List StepRec := s.trace.reverse

/-! ### Invariants of the loop -/

/-- What one checkpoint record must say, given the oracles: the validation
loss is the mean over all validation batches; on improvement the best value
is replaced, the test score is recomputed, the model is saved, and patience
becomes `max(patience, iter_no * patience_mult)` exactly when the 0.995
margin is met; otherwise nothing changes. -/
def checkClause (O : Oracles) (c : CheckRec) : Prop :=
  c.vloss = meanValidation O c.iterNo ∧
  c.patienceBefore ≤ c.patienceAfter ∧
  (if ltBest c.vloss c.bestBefore = true then
     c.improved = true ∧ c.saved = true ∧ c.bestAfter = some c.vloss ∧
     c.testScore = some (meanTestScore O c.iterNo) ∧
     c.patienceAfter = (if ltMargin c.vloss c.bestBefore = true
                        then max c.patienceBefore (c.iterNo * patience_mult)
                        else c.patienceBefore)
   else
     c.improved = false ∧ c.saved = false ∧ c.bestAfter = c.bestBefore ∧
     c.testScore = none ∧ c.patienceAfter = c.patienceBefore)

/-- The checkpoint field of a step record is present exactly when
`(iter_no + 1) % validation_freq == 0`, and then satisfies `checkClause`. -/
def checkFieldOK (O : Oracles) (vf iterNo patience : ℕ) : Option CheckRec → Prop
  | none => ¬ (iterNo + 1) % vf = 0
  | some cc => (iterNo + 1) % vf = 0 ∧ cc.iterNo = iterNo ∧
      cc.patienceAfter = patience ∧ checkClause O cc

/-- Per-step-record invariant: the early-exit flag is set exactly when the
global iteration index reaches the patience in force after the step's
checkpoint, and the checkpoint field is faithful. -/
def recOK (O : Oracles) (vf : ℕ) (r : StepRec) : Prop :=
  (r.doneAfter = true ↔ r.patienceAfter ≤ r.iterNo) ∧
  checkFieldOK O vf r.iterNo r.patienceAfter r.check

/-- Invariant of the training loop state.  The trace is most recent first,
so `trace_sorted` says patience never decreases chronologically, and
`tail_not_done` says only the final executed step can have tripped the
early exit. -/
structure LoopInv (O : Oracles) (vf : ℕ) (s : TState) : Prop where
  patience_lb : initial_patience ≤ s.patience
  trace_le : ∀ r ∈ s.trace, r.patienceAfter ≤ s.patience
  trace_sorted : s.trace.Pairwise (fun a b => b.patienceAfter ≤ a.patienceAfter)
  done_head : s.done = ((s.trace.head?.map StepRec.doneAfter).getD false)
  tail_not_done : ∀ r ∈ s.trace.tail, r.doneAfter = false
  rec_ok : ∀ r ∈ s.trace, recOK O vf r
  rec_lb : ∀ r ∈ s.trace, initial_patience ≤ r.patienceAfter

/-! ### Lemmas about one checkpoint -/

theorem doCheckpoint_fst_trace (O : Oracles) (s : TState) (i : ℕ) :
    ((doCheckpoint O s i).1).trace = s.trace := by
  unfold doCheckpoint
  dsimp only
  split <;> rfl

theorem doCheckpoint_fst_done (O : Oracles) (s : TState) (i : ℕ) :
    ((doCheckpoint O s i).1).done = s.done := by
  unfold doCheckpoint
  dsimp only
  split <;> rfl

theorem doCheckpoint_fst_epoch (O : Oracles) (s : TState) (i : ℕ) :
    ((doCheckpoint O s i).1).epoch = s.epoch := by
  unfold doCheckpoint
  dsimp only
  split <;> rfl

theorem doCheckpoint_patience_le (O : Oracles) (s : TState) (i : ℕ) :
    s.patience ≤ ((doCheckpoint O s i).1).patience := by
  unfold doCheckpoint
  dsimp only
  split
  · dsimp only
    split
    · exact le_max_left _ _
    · exact le_refl _
  · exact le_refl _

theorem doCheckpoint_snd_iterNo (O : Oracles) (s : TState) (i : ℕ) :
    ((doCheckpoint O s i).2).iterNo = i := by
  unfold doCheckpoint
  dsimp only
  split <;> rfl

theorem doCheckpoint_snd_patienceBefore (O : Oracles) (s : TState) (i : ℕ) :
    ((doCheckpoint O s i).2).patienceBefore = s.patience := by
  unfold doCheckpoint
  dsimp only
  split <;> rfl

theorem doCheckpoint_snd_patienceAfter (O : Oracles) (s : TState) (i : ℕ) :
    ((doCheckpoint O s i).2).patienceAfter = ((doCheckpoint O s i).1).patience := by
  unfold doCheckpoint
  dsimp only
  split <;> rfl

theorem doCheckpoint_snd_checkClause (O : Oracles) (s : TState) (i : ℕ) :
    checkClause O ((doCheckpoint O s i).2) := by
  unfold doCheckpoint
  dsimp only
  split
  · rename_i hb
    unfold checkClause
    dsimp only
    rw [if_pos hb]
    refine ⟨rfl, ?_, rfl, rfl, rfl, rfl, rfl⟩
    split
    · exact le_max_left _ _
    · exact le_refl _
  · rename_i hb
    unfold checkClause
    dsimp only
    rw [if_neg hb]
    exact ⟨rfl, le_refl _, rfl, rfl, rfl, rfl, rfl⟩

/-! ### Preservation of the invariant -/

theorem trace_not_done {O : Oracles} {vf : ℕ} {s : TState} (h : LoopInv O vf s)
    (hd : s.done = false) : ∀ r ∈ s.trace, r.doneAfter = false := by
  cases htr : s.trace with
  | nil => intro r hr; simp [htr] at hr
  | cons a t =>
    intro r hr
    have hhead := h.done_head
    rw [htr] at hhead
    simp only [List.head?_cons, Option.map_some', Option.getD_some] at hhead
    rcases List.mem_cons.mp hr with hra | hrt
    · rw [hra, ← hhead, hd]
    · have := h.tail_not_done r
      rw [htr] at this
      exact this hrt

theorem doCheckpoint_inv (O : Oracles) (vf : ℕ) {s : TState} (i : ℕ)
    (h : LoopInv O vf s) : LoopInv O vf ((doCheckpoint O s i).1) := by
  constructor
  · exact le_trans h.patience_lb (doCheckpoint_patience_le O s i)
  · rw [doCheckpoint_fst_trace]
    intro r hr
    exact le_trans (h.trace_le r hr) (doCheckpoint_patience_le O s i)
  · rw [doCheckpoint_fst_trace]; exact h.trace_sorted
  · rw [doCheckpoint_fst_done, doCheckpoint_fst_trace]; exact h.done_head
  · rw [doCheckpoint_fst_trace]; exact h.tail_not_done
  · rw [doCheckpoint_fst_trace]; exact h.rec_ok
  · rw [doCheckpoint_fst_trace]; exact h.rec_lb

theorem pushStep_inv (O : Oracles) (vf : ℕ) {s : TState} (e mb iterNo : ℕ)
    (c : Option CheckRec) (hd : s.done = false) (h : LoopInv O vf s)
    (hc : checkFieldOK O vf iterNo s.patience c) :
    LoopInv O vf (pushStep s e mb iterNo c) := by
  have hall := trace_not_done h hd
  constructor
  · exact h.patience_lb
  · intro r hr
    rcases List.mem_cons.mp hr with hra | hrt
    · rw [hra]; exact le_refl _
    · exact h.trace_le r hrt
  · exact List.pairwise_cons.mpr ⟨fun r hr => h.trace_le r hr, h.trace_sorted⟩
  · rfl
  · exact hall
  · intro r hr
    rcases List.mem_cons.mp hr with hra | hrt
    · rw [hra]
      exact ⟨decide_eq_true_iff, hc⟩
    · exact h.rec_ok r hrt
  · intro r hr
    rcases List.mem_cons.mp hr with hra | hrt
    · rw [hra]; exact h.patience_lb
    · exact h.rec_lb r hrt

theorem trainStep_inv (O : Oracles) (vf : ℕ) {s : TState} (e mb : ℕ)
    (hd : s.done = false) (h : LoopInv O vf s) :
    LoopInv O vf (trainStep O vf s e mb) := by
  unfold trainStep
  dsimp only
  split
  · rename_i hmod
    refine pushStep_inv O vf e mb _ _ ?_ (doCheckpoint_inv O vf _ h) ?_
    · rw [doCheckpoint_fst_done]; exact hd
    · exact ⟨hmod, doCheckpoint_snd_iterNo O s _,
        doCheckpoint_snd_patienceAfter O s _, doCheckpoint_snd_checkClause O s _⟩
  · rename_i hmod
    exact pushStep_inv O vf e mb _ none hd h hmod

theorem foldSteps_inv (O : Oracles) (vf e : ℕ) :
    ∀ (l : List ℕ) (s : TState), LoopInv O vf s →
      LoopInv O vf (l.foldl (fun st mb => if st.done then st else trainStep O vf st e mb) s) := by
  intro l
  induction l with
  | nil => intro s hs; exact hs
  | cons a t ih =>
    intro s hs
    rw [List.foldl_cons]
    by_cases hd : s.done = true
    · rw [if_pos hd]; exact ih s hs
    · rw [if_neg hd]
      exact ih _ (trainStep_inv O vf e a (by simpa using hd) hs)

theorem runBatches_inv (O : Oracles) (vf e : ℕ) {s : TState} (h : LoopInv O vf s) :
    LoopInv O vf (runBatches O vf e s) :=
  foldSteps_inv O vf e _ s h

theorem LoopInv_epoch (O : Oracles) (vf : ℕ) {s : TState} (e : ℕ) (h : LoopInv O vf s) :
    LoopInv O vf { s with epoch := e } :=
  ⟨h.patience_lb, h.trace_le, h.trace_sorted, h.done_head, h.tail_not_done,
   h.rec_ok, h.rec_lb⟩

theorem runEpochs_inv (O : Oracles) (vf : ℕ) :
    ∀ (fuel : ℕ) (s : TState), LoopInv O vf s → LoopInv O vf (runEpochs O vf fuel s) := by
  intro fuel
  induction fuel with
  | zero => intro s hs; exact hs
  | succ n ih =>
    intro s hs
    rw [runEpochs]
    by_cases hd : s.done = true
    · rw [if_pos hd]; exact hs
    · rw [if_neg hd]
      exact ih _ (runBatches_inv O vf _ (LoopInv_epoch O vf _ hs))

theorem initState_inv (O : Oracles) (vf : ℕ) : LoopInv O vf initState := by
  constructor
  · exact le_refl _
  · intro r hr; simp [initState] at hr
  · simp [initState]
  · rfl
  · intro r hr; simp [initState] at hr
  · intro r hr; simp [initState] at hr
  · intro r hr; simp [initState] at hr

theorem msgdRun_inv (O : Oracles) (nEpochs : ℕ) :
    LoopInv O (validation_freq O.nTrain) (msgdRun O nEpochs) :=
  runEpochs_inv O _ nEpochs initState (initState_inv O _)

/-! ### Step-count and epoch bounds -/

theorem trainStep_trace_length (O : Oracles) (vf : ℕ) (s : TState) (e mb : ℕ) :
    (trainStep O vf s e mb).trace.length = s.trace.length + 1 := by
  unfold trainStep
  dsimp only
  split
  · simp [pushStep, doCheckpoint_fst_trace]
  · simp [pushStep]

theorem foldSteps_length (O : Oracles) (vf e : ℕ) :
    ∀ (l : List ℕ) (s : TState),
      ((l.foldl (fun st mb => if st.done then st else trainStep O vf st e mb) s).trace.length ≤
        s.trace.length + l.length) := by
  intro l
  induction l with
  | nil => intro s; simp
  | cons a t ih =>
    intro s
    rw [List.foldl_cons]
    by_cases hd : s.done = true
    · rw [if_pos hd]
      have := ih s
      simp only [List.length_cons]
      omega
    · rw [if_neg hd]
      have := ih (trainStep O vf s e a)
      rw [trainStep_trace_length] at this
      simp only [List.length_cons]
      omega

theorem runBatches_length (O : Oracles) (vf e : ℕ) (s : TState) :
    (runBatches O vf e s).trace.length ≤ s.trace.length + O.nTrain := by
  have := foldSteps_length O vf e (List.range O.nTrain) s
  simpa [List.length_range] using this

theorem runEpochs_length (O : Oracles) (vf : ℕ) :
    ∀ (fuel : ℕ) (s : TState),
      (runEpochs O vf fuel s).trace.length ≤ s.trace.length + fuel * O.nTrain := by
  intro fuel
  induction fuel with
  | zero => intro s; simp [runEpochs]
  | succ n ih =>
    intro s
    rw [runEpochs]
    by_cases hd : s.done = true
    · rw [if_pos hd]
      have : s.trace.length ≤ s.trace.length + (n + 1) * O.nTrain := Nat.le_add_right _ _
      exact this
    · rw [if_neg hd]
      have h1 := ih (runBatches O vf (s.epoch + 1) { s with epoch := s.epoch + 1 })
      have h2 := runBatches_length O vf (s.epoch + 1) { s with epoch := s.epoch + 1 }
      have h3 : ({ s with epoch := s.epoch + 1 } : TState).trace.length = s.trace.length := rfl
      rw [h3] at h2
      have := le_trans h1 (Nat.add_le_add_right h2 _)
      calc (runEpochs O vf n (runBatches O vf (s.epoch + 1) { s with epoch := s.epoch + 1 })).trace.length
          ≤ s.trace.length + O.nTrain + n * O.nTrain := this
        _ = s.trace.length + (n + 1) * O.nTrain := by ring

theorem trainStep_epoch (O : Oracles) (vf : ℕ) (s : TState) (e mb : ℕ) :
    (trainStep O vf s e mb).epoch = s.epoch := by
  unfold trainStep
  dsimp only
  split
  · simp [pushStep, doCheckpoint_fst_epoch]
  · simp [pushStep]

theorem foldSteps_epoch (O : Oracles) (vf e : ℕ) :
    ∀ (l : List ℕ) (s : TState),
      ((l.foldl (fun st mb => if st.done then st else trainStep O vf st e mb) s).epoch = s.epoch) := by
  intro l
  induction l with
  | nil => intro s; rfl
  | cons a t ih =>
    intro s
    rw [List.foldl_cons]
    by_cases hd : s.done = true
    · rw [if_pos hd]; exact ih s
    · rw [if_neg hd]
      rw [ih (trainStep O vf s e a), trainStep_epoch]

theorem runEpochs_epoch (O : Oracles) (vf : ℕ) :
    ∀ (fuel : ℕ) (s : TState), (runEpochs O vf fuel s).epoch ≤ s.epoch + fuel := by
  intro fuel
  induction fuel with
  | zero => intro s; simp [runEpochs]
  | succ n ih =>
    intro s
    rw [runEpochs]
    by_cases hd : s.done = true
    · rw [if_pos hd]; exact Nat.le_add_right _ _
    · rw [if_neg hd]
      have h1 := ih (runBatches O vf (s.epoch + 1) { s with epoch := s.epoch + 1 })
      have h2 : (runBatches O vf (s.epoch + 1) { s with epoch := s.epoch + 1 }).epoch
          = s.epoch + 1 := foldSteps_epoch O vf (s.epoch + 1) (List.range O.nTrain) _
      rw [h2] at h1
      omega

/-! ### Small helpers for stating claims chronologically -/

theorem reverse_dropLast {α : Type} (l : List α) : l.reverse.dropLast = l.tail.reverse := by
  cases l with
  | nil => rfl
  | cons a t => simp [List.reverse_cons, List.dropLast_concat]

theorem check_patienceAfter {O : Oracles} {vf : ℕ} {r : StepRec} (h : recOK O vf r) :
    ∀ c ∈ r.check, c.patienceAfter = r.patienceAfter := by
  intro c hc
  have h2 := h.2
  rw [Option.mem_def] at hc
  rw [hc] at h2
  exact h2.2.2.1

/-! ### Claim theorems about the training loop -/

/-- C1: at a validation checkpoint of `msgd_optimization_mnist` whose fresh
mean validation error is strictly below the best seen so far, the patience
bound becomes `max(current_patience, current_iteration * patience_mult)`
(with `patience_mult = 2`) if and only if the new error is strictly below
`0.995` times the best-seen value (`ltMargin`); when the margin is not met
patience is left unchanged; the best-seen value is updated to the new
validation error in both cases. -/
theorem claim_c1_patience_update (O : Oracles) (s : TState) (iterNo : ℕ)
    (h : ltBest (meanValidation O iterNo) s.best = true) :
    (((doCheckpoint O s iterNo).1).patience =
      if ltMargin (meanValidation O iterNo) s.best = true
      then max s.patience (iterNo * patience_mult) else s.patience) ∧
    ((doCheckpoint O s iterNo).1).best = some (meanValidation O iterNo) ∧
    (ltMargin (meanValidation O iterNo) s.best = false →
      ((doCheckpoint O s iterNo).1).patience = s.patience) ∧
    patience_mult = 2 := by
  unfold doCheckpoint
  dsimp only
  rw [if_pos h]
  refine ⟨rfl, rfl, ?_, rfl⟩
  intro hm
  rw [if_neg (by simp [hm])]

/-- C2: the training loop always terminates: it executes at most
`n_epochs * n_train_batches` gradient steps and at most `n_epochs` epochs;
the early-exit flag of an executed step is set exactly when the step's
zero-based global iteration index has reached the patience bound in force
at that step; and every executed step except the final one left the flag
unset, i.e. the loop breaks at the first step whose index reaches the
current patience. -/
theorem claim_c2_termination (O : Oracles) (nEpochs : ℕ) :
    (msgdRun O nEpochs).trace.length ≤ nEpochs * O.nTrain ∧
    (msgdRun O nEpochs).epoch ≤ nEpochs ∧
    (∀ r ∈ chron (msgdRun O nEpochs), (r.doneAfter = true ↔ r.patienceAfter ≤ r.iterNo)) ∧
    (∀ r ∈ (chron (msgdRun O nEpochs)).dropLast, r.doneAfter = false) := by
  refine ⟨?_, ?_, ?_, ?_⟩
  · have h := runEpochs_length O (validation_freq O.nTrain) nEpochs initState
    simpa [msgdRun, initState] using h
  · have h := runEpochs_epoch O (validation_freq O.nTrain) nEpochs initState
    simpa [msgdRun, initState] using h
  · intro r hr
    exact ((msgdRun_inv O nEpochs).rec_ok r (List.mem_reverse.mp hr)).1
  · intro r hr
    simp only [chron] at hr
    rw [reverse_dropLast] at hr
    exact (msgdRun_inv O nEpochs).tail_not_done r (List.mem_reverse.mp hr)

/-- C3: the patience bound starts at 5000 and never decreases over a run:
every executed step carries a patience of at least 5000, the sequence of
patience values along the chronological trace is non-decreasing, and in
particular the patience values at successive validation checkpoints are
non-decreasing. -/
theorem claim_c3_patience_monotone (O : Oracles) (nEpochs : ℕ) :
    initState.patience = 5000 ∧
    (∀ r ∈ chron (msgdRun O nEpochs), 5000 ≤ r.patienceAfter) ∧
    (chron (msgdRun O nEpochs)).Pairwise (fun a b => a.patienceAfter ≤ b.patienceAfter) ∧
    ((chron (msgdRun O nEpochs)).filterMap StepRec.check).Pairwise
      (fun a b => a.patienceAfter ≤ b.patienceAfter) := by
  have hInv := msgdRun_inv O nEpochs
  have hchron : (chron (msgdRun O nEpochs)).Pairwise
      (fun a b => a.patienceAfter ≤ b.patienceAfter) := by
    simp only [chron]
    exact List.pairwise_reverse.mpr hInv.trace_sorted
  refine ⟨rfl, ?_, hchron, ?_⟩
  · intro r hr
    exact hInv.rec_lb r (List.mem_reverse.mp hr)
  · refine List.pairwise_filterMap.mpr ?_
    refine hchron.imp_of_mem ?_
    intro a b ha hb hab ca hca cb hcb
    rw [check_patienceAfter (hInv.rec_ok a (List.mem_reverse.mp ha)) ca hca,
        check_patienceAfter (hInv.rec_ok b (List.mem_reverse.mp hb)) cb hcb]
    exact hab

/-- C4: the validation check frequency is `min(n_train_batches, 2500)`
(2500 being `patience // 2` for the initial patience of 5000), and an
executed step carries a validation checkpoint exactly when its zero-based
global iteration index plus one is a multiple of that frequency; the
checkpoint's validation loss is the mean of `validate_model` over all
`n_validate_batches` validation batches. -/
theorem claim_c4_validation_schedule (O : Oracles) (nEpochs : ℕ) :
    validation_freq O.nTrain = min O.nTrain 2500 ∧
    (∀ r ∈ chron (msgdRun O nEpochs),
      (r.check.isSome = true ↔ (r.iterNo + 1) % validation_freq O.nTrain = 0) ∧
      ∀ c ∈ r.check, c.vloss = listMean ((List.range O.nValidate).map (O.valB r.iterNo))) := by
  constructor
  · rfl
  · intro r hr
    have hrec := (msgdRun_inv O nEpochs).rec_ok r (List.mem_reverse.mp hr)
    have h2 := hrec.2
    constructor
    · cases hck : r.check with
      | none =>
        rw [hck] at h2
        simp only [Option.isSome_none]
        constructor
        · intro hfalse; cases hfalse
        · intro hmod; exact absurd hmod h2
      | some c =>
        rw [hck] at h2
        simp only [Option.isSome_some]
        exact ⟨fun _ => h2.1, fun _ => trivial⟩
    · intro c hc
      rw [Option.mem_def] at hc
      rw [hc] at h2
      have hv := h2.2.2.2.1
      rw [h2.2.1] at hv
      exact hv

/-! ### Concrete runs used as witnesses -/

/-- A tiny concrete oracle set: one batch per split, constant validation
error 1/2 and constant test error 1/8. -/
def O2 : Oracles :=
  { valB := fun _ _ => 1/2
    testB := fun _ _ => 1/8
    nTrain := 1
    nValidate := 1
    nTest := 1 }

/-- The checkpoint record produced at the single step of `msgdRun O2 1`. -/
def c0 : CheckRec :=
  { iterNo := 0
    vloss := 1/2
    bestBefore := none
    bestAfter := some (1/2)
    patienceBefore := 5000
    patienceAfter := 5000
    improved := true
    testScore := some (7/8)
    saved := true }

/-- The single step record of `msgdRun O2 1`. -/
def r0 : StepRec :=
  { epoch := 1
    minibatch := 0
    iterNo := 0
    check := some c0
    patienceAfter := 5000
    doneAfter := false }

/-- The validation frequency of the witness run. -/
theorem vf_O2 : validation_freq O2.nTrain = 1 := by
  norm_num [validation_freq, O2, initial_patience]

theorem meanValidation_O2 (i : ℕ) : meanValidation O2 i = 1/2 := by
  simp [meanValidation, listMean, O2]

theorem meanTestScore_O2 (i : ℕ) : meanTestScore O2 i = 7/8 := by
  simp [meanTestScore, listMean, O2]
  norm_num

theorem doCheckpoint_O2 :
    doCheckpoint O2 { initState with epoch := 1 } 0 =
      ({ patience := 5000, best := some (1/2), testScore := 7/8, done := false, epoch := 1,
         trace := [] }, c0) := by
  unfold doCheckpoint
  dsimp only
  rw [meanValidation_O2, meanTestScore_O2]
  rw [if_pos (by norm_num [ltBest, initState])]
  rw [if_pos (by norm_num [ltMargin, initState])]
  simp [initState, initial_patience, c0, patience_mult]

theorem runBatches_O2 :
    runBatches O2 1 1 { initState with epoch := 1 } =
      { patience := 5000, best := some (1/2), testScore := 7/8, done := false, epoch := 1,
        trace := [r0] } := by
  unfold runBatches
  rw [show List.range O2.nTrain = [0] from rfl]
  rw [List.foldl_cons, List.foldl_nil]
  rw [if_neg (by simp [initState])]
  unfold trainStep
  dsimp only
  rw [show (1 - 1) * O2.nTrain + 0 = 0 from rfl]
  rw [if_pos (by norm_num)]
  rw [doCheckpoint_O2]
  unfold pushStep
  simp [r0, c0, initState, initial_patience]

/-- The witness run executes exactly one gradient step, whose record is `r0`. -/
theorem msgdRun_O2 :
    msgdRun O2 1 =
      { patience := 5000, best := some (1/2), testScore := 7/8, done := false, epoch := 1,
        trace := [r0] } := by
  rw [msgdRun, vf_O2]
  rw [show (1:ℕ) = 0 + 1 from rfl, runEpochs]
  rw [if_neg (by simp [initState])]
  rw [show initState.epoch + 1 = 1 from rfl]
  rw [runEpochs]
  exact runBatches_O2

theorem r0_mem_chron : r0 ∈ chron (msgdRun O2 1) := by
  rw [chron, msgdRun_O2]
  simp

theorem claim_c1_patience_update_witness :
    ltBest (meanValidation O2 7) initState.best = true ∧
    ((doCheckpoint O2 initState 7).1).patience =
      (if ltMargin (meanValidation O2 7) initState.best = true
       then max initState.patience (7 * patience_mult) else initState.patience) :=
  ⟨rfl, (claim_c1_patience_update O2 initState 7 rfl).1⟩

theorem claim_c2_termination_witness :
    r0 ∈ chron (msgdRun O2 1) ∧ (r0.doneAfter = true ↔ r0.patienceAfter ≤ r0.iterNo) :=
  ⟨r0_mem_chron, (claim_c2_termination O2 1).2.2.1 r0 r0_mem_chron⟩

theorem claim_c3_patience_monotone_witness :
    r0 ∈ chron (msgdRun O2 1) ∧ 5000 ≤ r0.patienceAfter :=
  ⟨r0_mem_chron, (claim_c3_patience_monotone O2 1).2.1 r0 r0_mem_chron⟩

theorem claim_c4_validation_schedule_witness :
    r0 ∈ chron (msgdRun O2 1) ∧
    (r0.check.isSome = true ↔ (r0.iterNo + 1) % validation_freq O2.nTrain = 0) :=
  ⟨r0_mem_chron, ((claim_c4_validation_schedule O2 1).2 r0 r0_mem_chron).1⟩

/-- C8: at the first (improving) validation checkpoint of the concrete run
`msgdRun O2 1`, the model is saved and a test quantity is recorded, but the
recorded quantity is `1 - mean(test errors) = 7/8` — the test *accuracy* —
even though the notebook prints it under the label
`test error of best model %f %%` and the mean test error is `1/8`.  The
"test error" the progress report shows is therefore not the test error. -/
theorem claim_c8_test_report_bug :
    ((msgdRun O2 1).trace.filterMap StepRec.check).map CheckRec.saved = [true] ∧
    ((msgdRun O2 1).trace.filterMap StepRec.check).map CheckRec.testScore = [some (7/8 : ℚ)] ∧
    listMean ((List.range O2.nTest).map (O2.testB 0)) = 1/8 ∧
    ((7 : ℚ)/8) = 1 - 1/8 ∧
    ¬ ((7 : ℚ)/8 = 1/8) := by
  refine ⟨?_, ?_, ?_, ?_, ?_⟩
  · rw [msgdRun_O2]; simp [r0, c0]
  · rw [msgdRun_O2]; simp [r0, c0]
  · simp [listMean, O2]
  · norm_num
  · norm_num

/-! ### The LogisticRegression model over the reals

`self.p_y_given_x = T.nnet.softmax(T.dot(x, self.W) + self.b)` and
`self.y_pred = T.argmax(self.p_y_given_x, axis=1)`; `T.argmax` (like
`numpy.argmax`) returns the first index attaining the maximum, which is
modelled by a left fold that replaces the current best index only on a
strict increase.  Matrices are functions out of `Fin`; the number of
classes is kept in the form `no + 1` so that a row always has an argmax. -/

/-- Row-wise softmax: exponentiate and normalize. -/
noncomputable def softmaxRow {n : ℕ} (z : Fin n → ℝ) (j : Fin n) : ℝ :=
  Real.exp (z j) / ∑ k, Real.exp (z k)

/-- `p_y_given_x = softmax(x·W + b)`, row `i`. -/
noncomputable def p_y_given_x {m ni no : ℕ} (x : Fin m → Fin ni → ℝ)
    (W : Fin ni → Fin no → ℝ) (b : Fin no → ℝ) (i : Fin m) : Fin no → ℝ :=
  softmaxRow (fun j => (∑ k, x i k * W k j) + b j)

/-- First-occurrence argmax, folding over candidate indices in order. -/
noncomputable def argmaxAux {n : ℕ} (f : Fin n → ℝ) (l : List (Fin n)) (b : Fin n) : Fin n :=
  l.foldl (fun best j => if f best < f j then j else best) b

/-- `y_pred = argmax(p_y_given_x, axis=1)`, row `i`. -/
noncomputable def y_pred {m ni no : ℕ} (x : Fin m → Fin ni → ℝ)
    (W : Fin ni → Fin (no+1) → ℝ) (b : Fin (no+1) → ℝ) (i : Fin m) : Fin (no+1) :=
  argmaxAux (p_y_given_x x W b i) (List.finRange (no+1)) 0

/-- `negative_log_likelihood(y) = -T.mean(T.log(p_y_given_x)[T.arange(y.shape[0]), y])`. -/
noncomputable def negative_log_likelihood {m ni no : ℕ} (x : Fin m → Fin ni → ℝ)
    (W : Fin ni → Fin no → ℝ) (b : Fin no → ℝ) (y : Fin m → Fin no) : ℝ :=
  -((∑ i, Real.log (p_y_given_x x W b i (y i))) / m)

/-- `errors(y) = T.mean(T.neq(y_pred, y))`. -/
noncomputable def errors {m ni no : ℕ} (x : Fin m → Fin ni → ℝ)
    (W : Fin ni → Fin (no+1) → ℝ) (b : Fin (no+1) → ℝ) (y : Fin m → Fin (no+1)) : ℝ :=
  (∑ i, if y_pred x W b i ≠ y i then (1:ℝ) else 0) / m

/-- C5: the forward pass of `LogisticRegression` computes, for every row,
the softmax of `x·W + b` as class probabilities; the prediction is the
(first-occurrence) argmax of those probabilities; the loss equals the mean
over rows of `-log(probs[row, true_label[row]])` as the spec words it; and
the error metric equals the fraction of rows whose prediction differs from
the true label. -/
theorem claim_c5_model_forward (m ni no : ℕ) (x : Fin m → Fin ni → ℝ)
    (W : Fin ni → Fin (no+1) → ℝ) (b : Fin (no+1) → ℝ) (y : Fin m → Fin (no+1)) :
    (∀ i j, p_y_given_x x W b i j =
      Real.exp ((∑ k, x i k * W k j) + b j) /
        ∑ j2, Real.exp ((∑ k, x i k * W k j2) + b j2)) ∧
    (∀ i, y_pred x W b i = argmaxAux (p_y_given_x x W b i) (List.finRange (no+1)) 0) ∧
    negative_log_likelihood x W b y =
      (∑ i, -(Real.log (p_y_given_x x W b i (y i)))) / m ∧
    errors x W b y =
      ((Finset.univ.filter (fun i => y_pred x W b i ≠ y i)).card : ℝ) / m := by
  refine ⟨fun i j => rfl, fun i => rfl, ?_, ?_⟩
  · unfold negative_log_likelihood
    rw [Finset.sum_neg_distrib, neg_div]
  · unfold errors
    rw [Finset.sum_boole]

/-- Folding for the argmax over a constant row never moves off the start. -/
theorem argmaxAux_const {n : ℕ} (f : Fin n → ℝ) (h : ∀ j k, f j = f k) :
    ∀ (l : List (Fin n)) (b : Fin n), argmaxAux f l b = b := by
  intro l
  induction l with
  | nil => intro b; rfl
  | cons a t ih =>
    intro b
    unfold argmaxAux
    rw [List.foldl_cons]
    rw [if_neg (by rw [h a b]; exact lt_irrefl _)]
    exact ih b

/-- The zero weight matrix of `LogisticRegression.__init__`
(`numpy.zeros((n_in, n_out))` with `n_in = 28*28`, `n_out = 10`). -/
def zeroW : Fin 784 → Fin 10 → ℝ := fun _ _ => 0

/-- The zero bias vector of `LogisticRegression.__init__`. -/
def zeroB : Fin 10 → ℝ := fun _ => 0

/-- C10: with the zero-initialized parameters `W = 0`, `b = 0` of
`LogisticRegression.__init__`, every class probability is `1/10` for every
input row, and the tie-breaking argmax therefore predicts class `0` for
every row. -/
theorem claim_c10_zero_init (m : ℕ) (x : Fin m → Fin 784 → ℝ) (i : Fin m) :
    (∀ j : Fin 10, p_y_given_x x zeroW zeroB i j = 1/10) ∧
    y_pred x zeroW zeroB i = 0 := by
  have hp : ∀ j : Fin 10, p_y_given_x x zeroW zeroB i j = 1/10 := by
    intro j
    unfold p_y_given_x softmaxRow zeroW zeroB
    simp [Real.exp_zero, Finset.sum_const, Finset.card_univ]
  refine ⟨hp, ?_⟩
  unfold y_pred
  exact argmaxAux_const _ (fun j k => by rw [hp j, hp k]) _ _

/-! ### The predict helper

`predict` unpickles the saved classifier and evaluates its `y_pred` graph
on the given input.  What the notebook pickles is the classifier object —
its parameter values `W`, `b` together with the forward-pass structure —
and unpickling restores those parameter values exactly, which is modelled
by `pickle_roundtrip` repacking the parameter record. -/

/-- The persisted parameter set of a trained classifier. -/
structure SavedClassifier (ni no : ℕ) where
  W : Fin ni → Fin (no+1) → ℝ
  b : Fin (no+1) → ℝ

/-- Serialization round-trip of the in-memory parameters. -/
def pickle_roundtrip {ni no : ℕ} (c : SavedClassifier ni no) : SavedClassifier ni no :=
  { W := c.W, b := c.b }

/-- `predict(saved_model, x)`: run the loaded classifier's `y_pred` on `x`. -/
noncomputable def predict {ni no m : ℕ} (saved : SavedClassifier ni no)
    (x : Fin m → Fin ni → ℝ) : Fin m → Fin (no+1) :=
  fun i => y_pred x saved.W saved.b i

/-- C9: `predict` applied to the persisted-and-reloaded parameters produces
for every input row exactly the class index the in-process forward pass
`argmax(softmax(x·W + b))` produces with the same parameters; `predict` is
a pure function of the saved parameters and the input. -/
theorem claim_c9_predict_roundtrip (ni no m : ℕ) (c : SavedClassifier ni no)
    (x : Fin m → Fin ni → ℝ) :
    predict (pickle_roundtrip c) x =
      fun i => argmaxAux
        (fun j => Real.exp ((∑ k, x i k * c.W k j) + c.b j) /
          ∑ j2, Real.exp ((∑ k, x i k * c.W k j2) + c.b j2))
        (List.finRange (no+1)) 0 := rfl

/-! ### load_data's explicit error condition

`load_data` begins with

    data_dir, data_file = os.path.split(dataset)
    if data_dir == "" and not os.path.isfile(dataset):
        raise ValueError('Incorrect dataset path', ('dataset', dataset))

Paths are modelled as `List Char` and the file system as an oracle
`isFile`.  `ospath_split` follows `posixpath.split` (the notebook's paths
use forward slashes): the tail is everything after the final `'/'`, the
head is the rest with trailing slashes stripped unless it consists only of
slashes. -/

def stripTrailingSlashes (l : List Char) : List Char :=
  (l.reverse.dropWhile (fun c => c == '/')).reverse

/-- `os.path.split` on a forward-slash path. -/
def ospath_split (p : List Char) : List Char × List Char :=
  let tl := (p.reverse.takeWhile (fun c => ! (c == '/'))).reverse
  let hd := p.take (p.length - tl.length)
  let hd2 := if hd.isEmpty || hd.all (fun c => c == '/') then hd
             else stripTrailingSlashes hd
  (hd2, tl)

/-- The one explicit raise of the notebook: `load_data` raises `ValueError`
iff the directory part of the path is empty and the file does not exist. -/
def load_data_raises (isFile : List Char → Bool) (dataset : List Char) : Bool :=
  (ospath_split dataset).1.isEmpty && ! isFile dataset

theorem ospath_split_dir_empty (p : List Char) :
    (ospath_split p).1.isEmpty = p.all (fun c => ! (c == '/')) := by
  by_cases hall : ∀ c ∈ p, (c == '/') = false
  · have hall2 : p.all (fun c => ! (c == '/')) = true := by
      rw [List.all_eq_true]
      intro c hc
      simp [hall c hc]
    have h1 : p.reverse.takeWhile (fun c => ! (c == '/')) = p.reverse := by
      rw [List.takeWhile_eq_self_iff]
      intro c hc
      rw [List.mem_reverse] at hc
      simp [hall c hc]
    rw [hall2]
    unfold ospath_split
    dsimp only
    rw [h1, List.reverse_reverse, Nat.sub_self]
    simp
  · obtain ⟨c, hc, hcs⟩ : ∃ c ∈ p, (c == '/') = true := by
      by_contra habs
      push_neg at habs
      exact hall fun c hc => Bool.eq_false_iff.mpr (habs c hc)
    have hrhs : p.all (fun ch => ! (ch == '/')) = false := by
      refine Bool.eq_false_iff.mpr ?_
      intro habs
      rw [List.all_eq_true] at habs
      have hx := habs c hc
      rw [hcs] at hx
      simp at hx
    rw [hrhs]
    have hlt : (p.reverse.takeWhile (fun ch => ! (ch == '/'))).length < p.length := by
      rcases Nat.lt_or_ge (p.reverse.takeWhile (fun ch => ! (ch == '/'))).length
          p.length with h | h
      · exact h
      · exfalso
        have hpre : p.reverse.takeWhile (fun ch => ! (ch == '/')) <+: p.reverse :=
          List.takeWhile_prefix _
        have hle := hpre.length_le
        rw [List.length_reverse] at hle
        have heq : p.reverse.takeWhile (fun ch => ! (ch == '/')) = p.reverse := by
          apply hpre.eq_of_length
          rw [List.length_reverse]
          exact Nat.le_antisymm hle h
        have hq := List.takeWhile_eq_self_iff.mp heq c (List.mem_reverse.mpr hc)
        rw [hcs] at hq
        simp at hq
    unfold ospath_split
    dsimp only
    rw [List.length_reverse]
    have hpne : p ≠ [] := List.ne_nil_of_mem hc
    have hhd : p.take (p.length - (p.reverse.takeWhile (fun ch => ! (ch == '/'))).length) ≠ [] := by
      rw [Ne, List.take_eq_nil_iff]
      push_neg
      exact ⟨Nat.sub_ne_zero_of_lt hlt, hpne⟩
    rcases hsplit : (p.take (p.length - (p.reverse.takeWhile (fun ch => ! (ch == '/'))).length)) with _ | ⟨d, ds⟩
    · exact absurd hsplit hhd
    · rw [← hsplit]
      set hd := p.take (p.length - (p.reverse.takeWhile (fun ch => ! (ch == '/'))).length) with hhd_def
      by_cases hcond : (hd.isEmpty || hd.all (fun ch => ch == '/')) = true
      · rw [if_pos hcond]
        rw [hsplit]
        rfl
      · rw [if_neg hcond]
        have hne : stripTrailingSlashes hd ≠ [] := by
          intro habs
          unfold stripTrailingSlashes at habs
          have hdw : hd.reverse.dropWhile (fun ch => ch == '/') = [] := by
            have := congrArg List.reverse habs
            rwa [List.reverse_reverse] at this
          rw [List.dropWhile_eq_nil_iff] at hdw
          have hallhd : hd.all (fun ch => ch == '/') = true := by
            rw [List.all_eq_true]
            intro ch hch
            exact hdw ch (List.mem_reverse.mpr hch)
          have : (hd.isEmpty || hd.all (fun ch => ch == '/')) = true := by
            rw [hallhd, Bool.or_true]
          exact hcond this
        cases hstrip : stripTrailingSlashes hd with
        | nil => exact absurd hstrip hne
        | cons e es => rfl

/-- C6 counterexample: with a file system in which no file exists, the
notebook's own dataset path `E:/ml/datasets/mnist.pkl.gz` does not resolve
to an existing file, yet `load_data` raises nothing, because the
`data_dir == ""` conjunct of its guard is false for any path containing a
slash. -/
theorem claim_c6_counterexample :
    (fun _ => false : List Char → Bool) ("E:/ml/datasets/mnist.pkl.gz".toList) = false ∧
    load_data_raises (fun _ => false) ("E:/ml/datasets/mnist.pkl.gz".toList) = false :=
  ⟨rfl, by decide⟩

/-- C6 (amended): `load_data` raises its `ValueError` if and only if the
dataset path contains no `'/'` at all (empty directory part) and the path
is not an existing file; for every path with a directory component the
check passes regardless of whether the file exists, and this raise is the
program's only explicit error condition. -/
theorem claim_c6_error_condition (isFile : List Char → Bool) (p : List Char) :
    load_data_raises isFile p = (p.all (fun c => ! (c == '/')) && ! isFile p) := by
  unfold load_data_raises
  rw [ospath_split_dir_empty]

/-! ### Batching -/

/-- `n_*_batches = *_set.shape[0] // batch_size`. -/
def n_batches (splitSize batchSize : ℕ) : ℕ := splitSize / batchSize

/-- The row indices covered by the slice
`dataset[index * batch_size : (index + 1) * batch_size]`. -/
def batchRows (splitSize bs i : ℕ) : List ℕ :=
  (List.range splitSize).filter (fun r => decide (i * bs ≤ r) && decide (r < (i + 1) * bs))

/-- All row indices fed to the model over one epoch (or one validation or
test pass): batches `0, …, n_batches - 1`. -/
def epochRows (splitSize bs : ℕ) : List ℕ :=
  ((List.range (n_batches splitSize bs)).map (batchRows splitSize bs)).flatten

/-- C7: with a positive batch size, the number of batches per split is the
floor of `split_size / batch_size`, those batches cover only row indices
below `n_batches * batch_size ≤ split_size`, and hence the leftover rows
(indices from `n_batches * batch_size` up to `split_size - 1`) are never
fed to the model. -/
theorem claim_c7_batching (splitSize bs : ℕ) (_hbs : 0 < bs) :
    n_batches splitSize bs = splitSize / bs ∧
    n_batches splitSize bs * bs ≤ splitSize ∧
    (∀ r ∈ epochRows splitSize bs, r < n_batches splitSize bs * bs) := by
  refine ⟨rfl, Nat.div_mul_le_self _ _, ?_⟩
  intro r hr
  unfold epochRows at hr
  rw [List.mem_flatten] at hr
  obtain ⟨l, hl, hrl⟩ := hr
  rw [List.mem_map] at hl
  obtain ⟨i, hi, rfl⟩ := hl
  rw [List.mem_range] at hi
  unfold batchRows at hrl
  rw [List.mem_filter] at hrl
  have h2 : r < (i + 1) * bs := by
    have hb := (Bool.and_eq_true _ _).mp hrl.2
    exact of_decide_eq_true hb.2
  calc r < (i + 1) * bs := h2
    _ ≤ n_batches splitSize bs * bs := Nat.mul_le_mul_right _ hi

theorem claim_c7_batching_witness :
    0 < 3 ∧ (5 : ℕ) ∈ epochRows 10 3 ∧ 5 < n_batches 10 3 * 3 :=
  ⟨by decide, by decide, (claim_c7_batching 10 3 (by decide)).2.2 5 (by decide)⟩

end MnistLogreg
